import Mathlib

/-!
Shallow embedding of the protocol-buffer / OSM PBF decoding core of this
repository (`protobuf.c`, `osm.c`).  Byte streams are modelled as
`List Nat` (one byte per element), machine integers as `Nat`/`Int` with
explicit reduction modulo powers of two, and fallible C functions as
`Option`-valued functions.  An input stream is consumed functionally: a
reading function returns the value read, the number of bytes consumed,
and the remaining stream.
-/

/-- Conversion of an unsigned 64-bit quantity to C `int64_t`
(two's-complement reinterpretation, as performed when a `uint64_t` value
is passed for an `int64_t` parameter). -/
def toInt64 (n : Nat) : Int :=
  if n % 2 ^ 64 < 2 ^ 63 then ((n % 2 ^ 64 : Nat) : Int)
  else ((n % 2 ^ 64 : Nat) : Int) - 2 ^ 64

/-- Conversion of an unsigned quantity to C `int32_t` (two's-complement). -/
def toInt32 (n : Nat) : Int :=
  if n % 2 ^ 32 < 2 ^ 31 then ((n % 2 ^ 32 : Nat) : Int)
  else ((n % 2 ^ 32 : Nat) : Int) - 2 ^ 32

/-- C `size_t` subtraction `a - b`, wrapping modulo `2 ^ 64`. -/
def sub64 (a b : Nat) : Nat := (a + (2 ^ 64 - b % 2 ^ 64)) % 2 ^ 64

/-- Wire-type code `VARINT_TYPE` from `protobuf.h` (standard code 0). -/
def VARINT_TYPE : Nat := 0

/-- Wire-type code `I64_TYPE` (standard code 1). -/
def I64_TYPE : Nat := 1

/-- Wire-type code `LEN_TYPE` (standard code 2). -/
def LEN_TYPE : Nat := 2

/-- Wire-type code `SGROUP_TYPE`, deprecated group start (standard code 3). -/
def SGROUP_TYPE : Nat := 3

/-- Wire-type code `EGROUP_TYPE`, deprecated group end (standard code 4). -/
def EGROUP_TYPE : Nat := 4

/-- Wire-type code `I32_TYPE` (standard code 5). -/
def I32_TYPE : Nat := 5

/-- Value of one field: the C `union value` of `protobuf.h`, made a sum
type tagged by shape — unsigned 64-bit, unsigned 32-bit, or a sized byte
buffer. -/
inductive PB_Value where
  | i64 (v : Nat) : PB_Value
  | i32 (v : Nat) : PB_Value
  | bytes (buf : List Nat) : PB_Value
deriving DecidableEq, Repr

/-- Reading `value.bytes` through the union.  For a decoded `LEN_TYPE`
field the stored value is always `bytes`; on the other arms the C union
would reinterpret raw integer bits as a pointer and size, which has no
defined meaning — those arms are unreachable in every statement proved in
this file. -/
def PB_Value.bytesOf : PB_Value → List Nat
  | .bytes buf => buf
  | _ => []

/-- One decoded field: `PB_Field` without the intrusive doubly-linked list
pointers.  A message (`PB_Message`) is modelled as the `List` of its
fields in encounter order; the sentinel node of the C circular list marks
the end of the list and is not represented. -/
structure PB_Field where
  number : Int
  type : Nat
  value : PB_Value
deriving DecidableEq, Repr

/-- Loop body of `PB_read_varint` (protobuf.c lines 32-39): read one byte
per iteration, fold its low 7 bits into the 64-bit accumulator at the
current shift position, and stop at the first byte with the high bit
clear.  Running out of input models `fread` failing at end-of-file, which
makes the C function return -1 (`none` here).  For shifts of 64 and more
the C shift is undefined behaviour; the model truncates the contribution
modulo `2 ^ 64`, the mathematical reading of a 64-bit accumulator. -/
def readVarintLoop : List Nat → Nat → Nat → Nat → Option (Nat × Nat × List Nat)
  | [], _, _, _ => none
  | b :: rest, result, shift, bytes_read =>
    let acc := (result ||| ((b &&& 0x7F) <<< shift)) % 2 ^ 64
    if b &&& 0x80 = 0 then some (acc, bytes_read + 1, rest)
    else readVarintLoop rest acc (shift + 7) (bytes_read + 1)

/-- Embedding of `PB_read_varint` (protobuf.c lines 26-43): returns the
decoded value, the count of bytes consumed, and the remaining stream. -/
def PB_read_varint (input : List Nat) : Option (Nat × Nat × List Nat) :=
  readVarintLoop input 0 0 0

/-- Embedding of `PB_read_tag` (protobuf.c lines 211-227): one varint; the
low 3 bits are the wire type and the remaining bits, truncated to
`int32_t`, the field number.  No wire-type validation is performed here.
The `feof` check at entry returns 0 only when a previous read already hit
end-of-file; on the streams the decoder uses that cannot happen before a
failed read, and a failed read aborts the whole decode, so the 0 and -1
returns are modelled together by `none`. -/
def PB_read_tag (input : List Nat) : Option (Nat × Int × Nat × List Nat) :=
  match PB_read_varint input with
  | none => none
  | some (tag, bytes_read, rest) =>
    some (tag &&& 0x07, toInt32 (tag >>> 3), bytes_read, rest)

/-- Little-endian value of a byte list, as laid down by `fread` into an
integer object on the little-endian target. -/
def leNat : List Nat → Nat
  | [] => 0
  | b :: rest => b % 256 + 256 * leNat rest

/-- Embedding of `PB_read_value` (protobuf.c lines 250-294).  `I64_TYPE`
and `I32_TYPE` read 8 resp. 4 raw bytes into the union; `LEN_TYPE` reads a
size varint and then that many raw bytes into a fresh buffer (counting the
size varint in the byte count); any other wire type — including the
deprecated group types 3 and 4 — falls into the `default` arm and fails.
The unchecked `malloc` of the `LEN_TYPE` buffer is modelled as
succeeding. -/
def PB_read_value (type : Nat) (input : List Nat) : Option (PB_Value × Nat × List Nat) :=
  if type = VARINT_TYPE then
    match PB_read_varint input with
    | none => none
    | some (v, n, rest) => some (.i64 v, n, rest)
  else if type = I64_TYPE then
    if 8 ≤ input.length then some (.i64 (leNat (input.take 8)), 8, input.drop 8) else none
  else if type = LEN_TYPE then
    match PB_read_varint input with
    | none => none
    | some (size, n, rest) =>
      if size ≤ rest.length then some (.bytes (rest.take size), n + size, rest.drop size)
      else none
  else if type = I32_TYPE then
    if 4 ≤ input.length then some (.i32 (leNat (input.take 4)), 4, input.drop 4) else none
  else none

/-- Embedding of `PB_read_field` (protobuf.c lines 166-190): a tag
followed by a value of the tag's wire type; the byte count is the sum of
both counts. -/
def PB_read_field (input : List Nat) : Option (PB_Field × Nat × List Nat) :=
  match PB_read_tag input with
  | none => none
  | some (wt, fnum, tag_bytes, rest) =>
    match PB_read_value wt rest with
    | none => none
    | some (v, value_bytes, rest2) =>
      some (⟨fnum, wt, v⟩, tag_bytes + value_bytes, rest2)

/-- Loop of `PB_read_message` (protobuf.c lines 59-74): while fewer than
`len` bytes have been consumed, read one field and append it at the tail
(insertion before the sentinel).  The first component is `some` of the
decoded fields when the loop finished and `none` after any failed field
read (the `return -1` on line 66); the other components are the
accumulated byte count and the remaining stream. -/
def readMessageLoop (input : List Nat) (len bytes_read : Nat) (acc : List PB_Field) :
    Option (List PB_Field) × Nat × List Nat :=
  if h : bytes_read < len then
    match PB_read_field input with
    | none => (none, bytes_read, input)
    | some (f, bytes, rest) =>
      if hb : bytes = 0 then (none, bytes_read, input)
      else readMessageLoop rest len (bytes_read + bytes) (acc ++ [f])
  else (some acc, bytes_read, input)
termination_by len - bytes_read
decreasing_by omega

/-- Embedding of `PB_read_message` (protobuf.c lines 45-79).  The
components are: the C return value (1 success, -1 error), the assignment
made to the caller's `*msgp` (`none` when the function returns without
assigning it, as on every failure path), and the byte count the loop
accumulated.  The `feof` check at entry is false on a fresh stream, and
the unchecked `malloc`s of sentinel and field nodes are modelled as
succeeding. -/
def PB_read_message (input : List Nat) (len : Nat) : Int × Option (List PB_Field) × Nat :=
  match readMessageLoop input len 0 [] with
  | (none, n, _) => (-1, none, n)
  | (some fields, n, _) => (1, some fields, n)

/-- Embedding of `PB_read_embedded_message` (protobuf.c lines 95-107):
decode a memory buffer as a message with `len` equal to the buffer's
length.  The NULL-buffer case (return -1) has no counterpart for a Lean
list and is dropped; a zero length returns 0 without touching `*msgp`. -/
def PB_read_embedded_message (buf : List Nat) : Int × Option (List PB_Field) :=
  if buf.length = 0 then (0, none)
  else ((PB_read_message buf buf.length).1, (PB_read_message buf buf.length).2.1)

/-- Outcome of one call of the external library routine `zlib_inflate`
(the routine itself is not part of this repository): its return status and
the bytes it wrote to the `open_memstream` output before returning. -/
structure InflateOutcome where
  status : Int
  output : List Nat
deriving DecidableEq, Repr

/-- Embedding of `PB_inflate_embedded_message` (protobuf.c lines 124-147),
parameterised by the outcome of the `zlib_inflate` call.  The C code calls
`zlib_inflate(input, output)` on line 140 and discards its return status;
it then hands whatever bytes reached the output stream to
`PB_read_embedded_message`.  No declared uncompressed size is passed to
the function, so none is compared against the inflated length.  A
zero-length input returns 0 immediately. -/
def PB_inflate_embedded_message (inflate : InflateOutcome) (buf : List Nat) :
    Int × Option (List PB_Field) :=
  if buf.length = 0 then (0, none)
  else PB_read_embedded_message inflate.output

/-- Number check of `PB_next_field` (protobuf.c line 333): `none` models
the `ANY_FIELD` wildcard. -/
def fnumMatches (fnum : Option Int) (f : PB_Field) : Bool :=
  match fnum with
  | none => true
  | some n => f.number == n

/-- Type check of `PB_next_field` (protobuf.c line 334): `none` models the
`ANY_TYPE` wildcard. -/
def typeMatches (type : Option Nat) (f : PB_Field) : Bool :=
  match type with
  | none => true
  | some t => f.type == t

/-- Scan loop of `PB_next_field` (protobuf.c lines 329-344) over the
fields still to be visited, in visiting order; reaching the end of the
list is reaching the sentinel.  On the first field whose number matches,
the wire type is checked: a mismatch ends the scan with NULL — the scan
does not continue past it. -/
def nextFieldScan (fnum : Option Int) (type : Option Nat) : List PB_Field → Option PB_Field
  | [] => none
  | f :: rest =>
    if fnumMatches fnum f then
      if typeMatches type f then some f else none
    else nextFieldScan fnum type rest

/-- Embedding of `PB_get_field` (protobuf.c lines 365-367): `PB_next_field`
started from the sentinel in `BACKWARD_DIR`, i.e. a scan of the fields in
reverse encounter order. -/
def PB_get_field (msg : List PB_Field) (fnum : Option Int) (type : Option Nat) : Option PB_Field :=
  nextFieldScan fnum type msg.reverse

/-- Field node created by the expansion loop (protobuf.c lines 411-419):
number and type are set before the value is read. -/
def mkExpField (fnum : Int) (type : Nat) (v : PB_Value) : PB_Field := ⟨fnum, type, v⟩

/-- Inner loop of `PB_expand_packed_fields` (protobuf.c lines 410-429),
reading packed values from the field's buffer while the `size` counter is
nonzero.  The loop has genuinely non-terminating executions, so the model
is fuel-indexed: `none` means the loop has not finished within `fuel`
iterations.  The state is the remaining sub-stream, the stream's
end-of-file flag, the `size` counter (a `size_t`, wrapping modulo
`2 ^ 64`), and the fields produced so far.  Quirks modelled from the C
source: the result of `PB_read_value` is stored into a `size_t`, so the
`bytes_read < 0` check on line 422 never fires and a -1 return wraps to
`2 ^ 64 - 1`; after a failed read the already-linked field node keeps an
uninitialized value (modelled as `i64 0`, and the stream position is left
where it was — no proved statement visits these states); a `PB_read_value`
call that finds the end-of-file flag set returns 0 at once, leaving `size`
unchanged.  The flag becomes set exactly when a failure came from reading
past the end of the memory stream, which happens for the four real wire
types but not for the `default` arm. -/
def expandPackedLoop (fnum : Int) (type : Nat) :
    Nat → List Nat → Bool → Nat → List PB_Field → Option (List PB_Field)
  | 0, _, _, _, _ => none
  | fuel + 1, stream, eof, size, acc =>
    if size = 0 then some acc
    else if eof then
      expandPackedLoop fnum type fuel stream eof size (acc ++ [mkExpField fnum type (.i64 0)])
    else
      match PB_read_value type stream with
      | some (v, n, rest) =>
        expandPackedLoop fnum type fuel rest eof (sub64 size n) (acc ++ [mkExpField fnum type v])
      | none =>
        expandPackedLoop fnum type fuel stream
          (decide (type = VARINT_TYPE ∨ type = I64_TYPE ∨ type = LEN_TYPE ∨ type = I32_TYPE))
          (sub64 size (2 ^ 64 - 1)) (acc ++ [mkExpField fnum type (.i64 0)])

/-- Outer loop of `PB_expand_packed_fields` (protobuf.c lines 399-434)
over the message's fields, by position in the evolving list.  The C code
advances `curr` only inside the `if (curr->number == fnum)` branch (line
432), so a field whose number differs from `fnum` is revisited forever;
the fuel records that such executions never finish.  An expansion appends
its fields at the tail of the message (insertion before the sentinel,
lines 425-428) and leaves the original packed field in place. -/
def expandFieldsLoop (fnum : Int) (type : Nat) :
    Nat → List PB_Field → Nat → Option (List PB_Field)
  | 0, _, _ => none
  | fuel + 1, fields, i =>
    if h : i < fields.length then
      let curr := fields.get ⟨i, h⟩
      if curr.number = fnum then
        if curr.type = LEN_TYPE then
          match expandPackedLoop fnum type fuel curr.value.bytesOf false
              curr.value.bytesOf.length [] with
          | none => none
          | some newFields => expandFieldsLoop fnum type fuel (fields ++ newFields) (i + 1)
        else expandFieldsLoop fnum type fuel fields (i + 1)
      else expandFieldsLoop fnum type fuel fields i
    else some fields

/-- Embedding of `PB_expand_packed_fields` (protobuf.c lines 398-436).  A
`some` result models the function returning 1 with the message mutated to
the returned field list; `none` means the traversal has not finished
within `fuel` steps.  The `fmemopen` and `malloc` failure returns (-1) are
modelled as not occurring. -/
def PB_expand_packed_fields (fuel : Nat) (msg : List PB_Field) (fnum : Int) (type : Nat) :
    Option (List PB_Field) :=
  expandFieldsLoop fnum type fuel msg 0

/-- Embedding of `zigzag_decode` (osm.c lines 36-40).  The parameter is a
C `int64_t`; `%` and `/` are C truncated division, i.e. `Int.tmod` and
`Int.tdiv`. -/
def zigzag_decode (n : Int) : Int :=
  if Int.tmod n 2 = 0 then Int.tdiv n 2
  else Int.tdiv (-(n + 1)) 2

/-- Zig-zag encoding, modelled from the spec (sections 4.1 and 8): the
standard protobuf mapping sending a signed 64-bit value `x` to `2 * x`
when `x ≥ 0` and to `-2 * x - 1` when `x < 0`.  The repository contains no
encoder; this is the reference mapping the decode claims measure
against. -/
def zigzag_encode_spec (x : Int) : Nat :=
  if 0 ≤ x then (2 * x).toNat else (-2 * x - 1).toNat

/-- Zig-zag decoding as the claim words it, over the unsigned varint:
even `n` to `n / 2`, odd `n` to `-(n + 1) / 2`. -/
def zigzag_decode_spec (n : Nat) : Int :=
  if n % 2 = 0 then (n : Int) / 2 else -(((n : Int) + 1) / 2)

/-- Model of `struct OSM_BBox` (osm.c lines 10-15), coordinates in
nanodegrees. -/
structure OSM_BBox where
  min_lat : Int
  max_lat : Int
  min_lon : Int
  max_lon : Int
deriving DecidableEq, Repr

/-- Model of `struct OSM_Node` (osm.c lines 25-29). -/
structure OSM_Node where
  id : Int
  lat : Int
  lon : Int
deriving DecidableEq, Repr

/-- Model of `struct OSM_Way` (osm.c lines 31-34). -/
structure OSM_Way where
  id : Int
  num_refs : Int
deriving DecidableEq, Repr

/-- Model of `struct OSM_Map` (osm.c lines 17-23); the node and way arrays
take no part in any claim and are elided. -/
structure OSM_Map where
  bbox : OSM_BBox
  num_nodes : Int
  num_ways : Int
deriving DecidableEq, Repr

/-- Embedding of `OSM_Map_get_num_nodes` (osm.c lines 98-101); `none`
models a NULL pointer argument. -/
def OSM_Map_get_num_nodes : Option OSM_Map → Int
  | none => -1
  | some mp => mp.num_nodes

/-- Embedding of `OSM_Map_get_num_ways` (osm.c lines 110-113). -/
def OSM_Map_get_num_ways : Option OSM_Map → Int
  | none => -1
  | some mp => mp.num_ways

/-- Embedding of `OSM_Map_get_BBox` (osm.c lines 150-153): NULL in, NULL
out. -/
def OSM_Map_get_BBox : Option OSM_Map → Option OSM_BBox
  | none => none
  | some mp => some mp.bbox

/-- Embedding of `OSM_Node_get_id` (osm.c lines 162-165). -/
def OSM_Node_get_id : Option OSM_Node → Int
  | none => -1
  | some np => np.id

/-- Embedding of `OSM_Node_get_lat` (osm.c lines 174-177). -/
def OSM_Node_get_lat : Option OSM_Node → Int
  | none => -1
  | some np => np.lat

/-- Embedding of `OSM_Node_get_lon` (osm.c lines 186-189). -/
def OSM_Node_get_lon : Option OSM_Node → Int
  | none => -1
  | some np => np.lon

/-- Embedding of `OSM_Way_get_id` (osm.c lines 240-243). -/
def OSM_Way_get_id : Option OSM_Way → Int
  | none => -1
  | some wp => wp.id

/-- Embedding of `OSM_Way_get_num_refs` (osm.c lines 252-255). -/
def OSM_Way_get_num_refs : Option OSM_Way → Int
  | none => -1
  | some wp => wp.num_refs

/-- Embedding of `OSM_BBox_get_min_lon` (osm.c lines 320-323). -/
def OSM_BBox_get_min_lon : Option OSM_BBox → Int
  | none => -1
  | some bbp => bbp.min_lon

/-- Embedding of `OSM_BBox_get_max_lon` (osm.c lines 332-335). -/
def OSM_BBox_get_max_lon : Option OSM_BBox → Int
  | none => -1
  | some bbp => bbp.max_lon

/-- Embedding of `OSM_BBox_get_max_lat` (osm.c lines 344-347). -/
def OSM_BBox_get_max_lat : Option OSM_BBox → Int
  | none => -1
  | some bbp => bbp.max_lat

/-- Embedding of `OSM_BBox_get_min_lat` (osm.c lines 356-359). -/
def OSM_BBox_get_min_lat : Option OSM_BBox → Int
  | none => -1
  | some bbp => bbp.min_lat

/-- Well-formed varint encoding: a nonempty byte run, all elements below
256, every byte except the last with the high bit set and the last with
it clear. -/
def wellFormedVarint : List Nat → Bool
  | [] => false
  | [b] => decide (b < 128)
  | b :: rest => decide (128 ≤ b) && decide (b < 256) && wellFormedVarint rest

/-- Value encoded by a varint byte run: 7 data bits per byte, little
endian — the first byte holds the least significant 7 bits. -/
def varintVal : List Nat → Nat
  | [] => 0
  | b :: rest => b % 128 + 128 * varintVal rest

/-- A packed buffer together with the sequence of primitive values it
encodes: repeated application of `PB_read_value` consumes exactly the
whole buffer and yields the values in order. -/
inductive DecodesPacked (type : Nat) : List Nat → List PB_Value → Prop
  | nil : DecodesPacked type [] []
  | cons {input rest : List Nat} {v : PB_Value} {n : Nat} {vs : List PB_Value} :
      PB_read_value type input = some (v, n, rest) →
      DecodesPacked type rest vs →
      DecodesPacked type input (v :: vs)

theorem lor_mod_two_pow (a b k : Nat) : (a ||| b) % 2 ^ k = a % 2 ^ k ||| b % 2 ^ k := by
  apply Nat.eq_of_testBit_eq
  intro i
  simp only [Nat.testBit_mod_two_pow, Nat.testBit_lor]
  by_cases h : i < k <;> simp [h]

theorem lor_div_two_pow (a b k : Nat) : (a ||| b) / 2 ^ k = a / 2 ^ k ||| b / 2 ^ k := by
  rw [← Nat.shiftRight_eq_div_pow, ← Nat.shiftRight_eq_div_pow, ← Nat.shiftRight_eq_div_pow]
  apply Nat.eq_of_testBit_eq
  intro i
  simp [Nat.testBit_shiftRight, Nat.testBit_lor]

theorem shiftLeft_lor_distrib (x y s : Nat) : (x ||| y) <<< s = x <<< s ||| y <<< s := by
  apply Nat.eq_of_testBit_eq
  intro i
  simp only [Nat.testBit_shiftLeft, Nat.testBit_lor]
  by_cases h : i ≥ s <;> simp [h]

theorem lor_disjoint_eq_add (a b k : Nat) (ha : a < 2 ^ k) : a ||| b <<< k = a + b * 2 ^ k := by
  have hmod : (a ||| b <<< k) % 2 ^ k = a := by
    rw [lor_mod_two_pow, Nat.shiftLeft_eq, Nat.mul_mod_left, Nat.mod_eq_of_lt ha, Nat.or_zero]
  have hdiv : (a ||| b <<< k) / 2 ^ k = b := by
    rw [lor_div_two_pow, Nat.shiftLeft_eq, Nat.div_eq_of_lt ha,
      Nat.mul_div_cancel b (Nat.pos_pow_of_pos k (by norm_num)), Nat.zero_or]
  calc a ||| b <<< k
      = 2 ^ k * ((a ||| b <<< k) / 2 ^ k) + (a ||| b <<< k) % 2 ^ k := (Nat.div_add_mod _ _).symm
    _ = 2 ^ k * b + a := by rw [hmod, hdiv]
    _ = a + b * 2 ^ k := by ring

theorem byte_high_bit_clear {b : Nat} (h : b < 128) : b &&& 128 = 0 := by
  apply Nat.eq_of_testBit_eq
  intro i
  rw [Nat.testBit_and]
  rcases eq_or_ne i 7 with rfl | hi
  · rw [Nat.testBit_lt_two_pow (by simpa using h)]
    simp
  · rw [show (128 : Nat) = 2 ^ 7 from rfl, Nat.testBit_two_pow_of_ne (by omega)]
    simp

theorem byte_high_bit_set {b : Nat} (h1 : 128 ≤ b) (h2 : b < 256) : b &&& 128 ≠ 0 := by
  have h7 : b.testBit 7 = true := by
    rw [Nat.testBit_to_div_mod]
    simp only [decide_eq_true_eq]
    omega
  intro hc
  have h3 := congrArg (fun x => x.testBit 7) hc
  simp only [Nat.testBit_and, h7, Bool.true_and, Nat.zero_testBit] at h3
  exact absurd h3 (by decide)

theorem and_127_eq_mod (b : Nat) : b &&& 127 = b % 128 := Nat.and_pow_two_sub_one_eq_mod b 7

theorem lor_mod_left (a b k : Nat) : (a % 2 ^ k ||| b) % 2 ^ k = (a ||| b) % 2 ^ k := by
  rw [lor_mod_two_pow, Nat.mod_mod, ← lor_mod_two_pow]

theorem varint_step (result X V shift : Nat) (hX : X < 128) :
    ((result ||| X <<< shift) % 2 ^ 64 ||| V <<< (shift + 7)) % 2 ^ 64
      = (result ||| (X + 128 * V) <<< shift) % 2 ^ 64 := by
  have hadd : X + 128 * V = X ||| V <<< 7 := by
    rw [lor_disjoint_eq_add X V 7 hX]
    norm_num
    ring
  rw [hadd, shiftLeft_lor_distrib, lor_mod_left, Nat.lor_assoc]
  congr 3


theorem readVarintLoop_cons (b : Nat) (rest : List Nat) (result shift bytes_read : Nat) :
    readVarintLoop (b :: rest) result shift bytes_read =
      if b &&& 128 = 0 then
        some ((result ||| (b &&& 127) <<< shift) % 2 ^ 64, bytes_read + 1, rest)
      else
        readVarintLoop rest ((result ||| (b &&& 127) <<< shift) % 2 ^ 64) (shift + 7)
          (bytes_read + 1) := rfl

theorem readVarintLoop_spec (vs : List Nat) (hw : wellFormedVarint vs = true) :
    ∀ (k : List Nat) (result shift bytes_read : Nat), result < 2 ^ 64 →
    readVarintLoop (vs ++ k) result shift bytes_read =
      some ((result ||| varintVal vs <<< shift) % 2 ^ 64, bytes_read + vs.length, k) := by
  induction vs with
  | nil => simp [wellFormedVarint] at hw
  | cons b rest ih =>
    intro k result shift bytes_read hres
    cases rest with
    | nil =>
      have hb : b < 128 := by simpa [wellFormedVarint] using hw
      rw [List.cons_append, List.nil_append, readVarintLoop_cons]
      rw [if_pos (byte_high_bit_clear hb)]
      have hval : varintVal [b] = b % 128 := by simp [varintVal]
      rw [hval, and_127_eq_mod]
      simp
    | cons c rest2 =>
      have hsplit : 128 ≤ b ∧ b < 256 ∧ wellFormedVarint (c :: rest2) = true := by
        have := hw
        simp only [wellFormedVarint, Bool.and_eq_true, decide_eq_true_eq] at this
        exact ⟨this.1.1, this.1.2, this.2⟩
      rw [List.cons_append, readVarintLoop_cons]
      rw [if_neg (byte_high_bit_set hsplit.1 hsplit.2.1)]
      rw [ih hsplit.2.2 k _ (shift + 7) (bytes_read + 1) (Nat.mod_lt _ (by norm_num))]
      rw [and_127_eq_mod]
      rw [varint_step result (b % 128) (varintVal (c :: rest2)) shift (Nat.mod_lt b (by norm_num))]
      have : varintVal (b :: c :: rest2) = b % 128 + 128 * varintVal (c :: rest2) := rfl
      rw [this]
      have hlen : bytes_read + 1 + (c :: rest2).length = bytes_read + (b :: c :: rest2).length := by
        simp only [List.length_cons]
        omega
      rw [hlen]

theorem PB_read_varint_wf (vs k : List Nat) (hw : wellFormedVarint vs = true) :
    PB_read_varint (vs ++ k) = some (varintVal vs % 2 ^ 64, vs.length, k) := by
  unfold PB_read_varint
  rw [readVarintLoop_spec vs hw k 0 0 0 (by norm_num)]
  simp [Nat.shiftLeft_zero, Nat.zero_or]

theorem readVarintLoop_all_cont (input : List Nat) (h : ∀ b ∈ input, 128 ≤ b ∧ b < 256) :
    ∀ result shift bytes_read, readVarintLoop input result shift bytes_read = none := by
  induction input with
  | nil => intro result shift bytes_read; rfl
  | cons b rest ih =>
    intro result shift bytes_read
    have hb := h b (by simp)
    rw [readVarintLoop_cons]
    rw [if_neg (byte_high_bit_set hb.1 hb.2)]
    exact ih (fun x hx => h x (by simp [hx])) _ _ _

theorem readVarintLoop_consumed (input : List Nat) :
    ∀ result shift bytes_read v n rest,
      readVarintLoop input result shift bytes_read = some (v, n, rest) →
      bytes_read < n ∧ (n - bytes_read) + rest.length = input.length := by
  induction input with
  | nil => intro result shift bytes_read v n rest h; exact absurd h (by simp [readVarintLoop])
  | cons b bs ih =>
    intro result shift bytes_read v n rest h
    rw [readVarintLoop_cons] at h
    by_cases hb : b &&& 128 = 0
    · rw [if_pos hb] at h
      have h2 := h
      simp only [Option.some.injEq, Prod.mk.injEq] at h2
      obtain ⟨-, hn, hrest⟩ := h2
      subst hn
      subst hrest
      constructor
      · omega
      · simp only [List.length_cons]
        omega
    · rw [if_neg hb] at h
      have h2 := ih _ _ _ _ _ _ h
      constructor
      · omega
      · simp only [List.length_cons]
        omega

theorem PB_read_varint_consumed (input : List Nat) (v n : Nat) (rest : List Nat)
    (h : PB_read_varint input = some (v, n, rest)) :
    1 ≤ n ∧ n + rest.length = input.length := by
  have h2 := readVarintLoop_consumed input 0 0 0 v n rest h
  omega

theorem PB_read_value_consumed (type : Nat) (input : List Nat) (v : PB_Value) (n : Nat)
    (rest : List Nat) (h : PB_read_value type input = some (v, n, rest)) :
    1 ≤ n ∧ n + rest.length = input.length := by
  unfold PB_read_value at h
  by_cases h0 : type = VARINT_TYPE
  · rw [if_pos h0] at h
    rcases hv : PB_read_varint input with - | ⟨w, m, rest2⟩
    · simp only [hv] at h
      exact absurd h (by simp)
    · simp only [hv, Option.some.injEq, Prod.mk.injEq] at h
      obtain ⟨-, hn, hrest⟩ := h
      have hc := PB_read_varint_consumed input w m rest2 hv
      rw [hn, hrest] at hc
      exact hc
  · rw [if_neg h0] at h
    by_cases h1 : type = I64_TYPE
    · rw [if_pos h1] at h
      by_cases hlen : 8 ≤ input.length
      · rw [if_pos hlen] at h
        simp only [Option.some.injEq, Prod.mk.injEq] at h
        obtain ⟨-, hn, hrest⟩ := h
        subst hn; subst hrest
        simp only [List.length_drop]
        omega
      · rw [if_neg hlen] at h
        exact absurd h (by simp)
    · rw [if_neg h1] at h
      by_cases h2 : type = LEN_TYPE
      · rw [if_pos h2] at h
        rcases hv : PB_read_varint input with - | ⟨size, m, rest2⟩
        · simp only [hv] at h
          exact absurd h (by simp)
        simp only [hv] at h
        by_cases hsz : size ≤ rest2.length
        · rw [if_pos hsz] at h
          simp only [Option.some.injEq, Prod.mk.injEq] at h
          obtain ⟨-, hn, hrest⟩ := h
          subst hn; subst hrest
          have hv2 := PB_read_varint_consumed input size m rest2 hv
          simp only [List.length_drop]
          omega
        · rw [if_neg hsz] at h
          exact absurd h (by simp)
      · rw [if_neg h2] at h
        by_cases h3 : type = I32_TYPE
        · rw [if_pos h3] at h
          by_cases hlen : 4 ≤ input.length
          · rw [if_pos hlen] at h
            simp only [Option.some.injEq, Prod.mk.injEq] at h
            obtain ⟨-, hn, hrest⟩ := h
            subst hn; subst hrest
            simp only [List.length_drop]
            omega
          · rw [if_neg hlen] at h
            exact absurd h (by simp)
        · rw [if_neg h3] at h
          exact absurd h (by simp)

/-- Claim C8: for every byte sequence consisting of a single well-formed
varint (a run of bytes with the high bit set terminated by one byte with
the high bit clear) followed by any trailing bytes, `PB_read_varint`
consumes exactly the varint's bytes, returns that byte count, and returns
the value obtained by accumulating each byte's low 7 bits at successively
higher bit positions (little-endian within the varint, truncated to 64
bits); and on a stream that ends before a terminating byte is seen, it
fails. -/
theorem claim_C8_read_varint (vs k : List Nat) (hw : wellFormedVarint vs = true) :
    PB_read_varint (vs ++ k) = some (varintVal vs % 2 ^ 64, vs.length, k) ∧
    (∀ input : List Nat, (∀ b ∈ input, 128 ≤ b ∧ b < 256) → PB_read_varint input = none) := by
  constructor
  · exact PB_read_varint_wf vs k hw
  · intro input hcont
    exact readVarintLoop_all_cont input hcont 0 0 0

theorem claim_C8_witness :
    wellFormedVarint [0xAC, 0x02] = true ∧
    PB_read_varint ([0xAC, 0x02] ++ [7]) = some (300, 2, [7]) ∧
    PB_read_varint [0x80, 0xFF] = none := by
  refine ⟨by decide, ?_, ?_⟩
  · have h := (claim_C8_read_varint [0xAC, 0x02] [7] (by decide)).1
    simpa using h
  · exact (claim_C8_read_varint [0xAC, 0x02] [7] (by decide)).2 [0x80, 0xFF] (by decide)

theorem readMessageLoop_isSome_le (k : Nat) :
    ∀ (input : List Nat) (len bytes_read : Nat) (acc : List PB_Field),
      len - bytes_read ≤ k →
      (readMessageLoop input len bytes_read acc).1.isSome = true →
      len ≤ (readMessageLoop input len bytes_read acc).2.1 := by
  induction k with
  | zero =>
    intro input len br acc hk hs
    rw [readMessageLoop, dif_neg (by omega : ¬ br < len)]
    simp only
    omega
  | succ k ih =>
    intro input len br acc hk hs
    by_cases hlt : br < len
    · rw [readMessageLoop, dif_pos hlt] at hs ⊢
      rcases hf : PB_read_field input with - | ⟨f, bytes, rest⟩
      · simp [hf] at hs
      · simp only [hf] at hs ⊢
        by_cases hb : bytes = 0
        · rw [dif_pos hb] at hs
          simp at hs
        · rw [dif_neg hb] at hs ⊢
          exact ih rest len (br + bytes) (acc ++ [f]) (by omega) hs
    · rw [readMessageLoop, dif_neg hlt]
      simp only
      omega

/-- Claim C9: whenever any decode failure occurs inside `PB_read_message`,
the whole message decode aborts with the error result -1 and the caller's
msgp variable is not assigned — a message is handed back only when the
function returns 1. -/
theorem claim_C9_no_partial_message (input : List Nat) (len : Nat) :
    ((PB_read_message input len).1 = -1 → (PB_read_message input len).2.1 = none) ∧
    ((PB_read_message input len).2.1 ≠ none → (PB_read_message input len).1 = 1) := by
  unfold PB_read_message
  rcases hres : readMessageLoop input len 0 [] with ⟨res, n, rest⟩
  cases res <;> simp

theorem claim_C9_witness :
    (PB_read_message [] 1).1 = -1 ∧ (PB_read_message [] 1).2.1 = none := by
  have heval : PB_read_message [] 1 = (-1, none, 0) := by
    unfold PB_read_message
    rw [readMessageLoop]
    norm_num
    rw [show PB_read_field [] = none from by decide]
  refine ⟨by rw [heval], (claim_C9_no_partial_message [] 1).1 (by rw [heval])⟩

/-- Claim C6 counterexample: with byte budget 1 and a stream carrying a
2-byte field, `PB_read_message` succeeds yet consumes 2 bytes, so a
successful decode does not always consume exactly the budget and can go
beyond it. -/
theorem claim_C6_counterexample :
    PB_read_message [0x08, 0x01] 1 = (1, some [⟨1, VARINT_TYPE, .i64 1⟩], 2) ∧ (2 : Nat) ≠ 1 := by
  constructor
  · unfold PB_read_message
    rw [readMessageLoop]
    norm_num
    rw [show PB_read_field [8, 1] = some (⟨1, VARINT_TYPE, PB_Value.i64 1⟩, 2, []) from by decide]
    norm_num
    rw [readMessageLoop]
    norm_num
  · decide

/-- Claim C6 amended: whenever `PB_read_message` succeeds, the
accumulated byte count is at least the budget: the loop stops at the
first field boundary at or past the budget, which can lie beyond it when
the final field straddles the budget. -/
theorem claim_C6_amended (input : List Nat) (len : Nat)
    (h : (PB_read_message input len).2.1 ≠ none) :
    len ≤ (PB_read_message input len).2.2 := by
  have hle := readMessageLoop_isSome_le len input len 0 [] (by omega)
  unfold PB_read_message at h ⊢
  rcases hres : readMessageLoop input len 0 [] with ⟨res, n, rest⟩
  rw [hres] at hle
  simp only [hres] at h ⊢
  cases res
  · simp at h
  · simpa using hle (by simp)

theorem claim_C6_witness :
    (PB_read_message [0x08, 0x01] 2).2.1 ≠ none ∧ 2 ≤ (PB_read_message [0x08, 0x01] 2).2.2 := by
  have heval : PB_read_message [0x08, 0x01] 2 = (1, some [⟨1, VARINT_TYPE, .i64 1⟩], 2) := by
    unfold PB_read_message
    rw [readMessageLoop]
    norm_num
    rw [show PB_read_field [8, 1] = some (⟨1, VARINT_TYPE, PB_Value.i64 1⟩, 2, []) from by decide]
    norm_num
    rw [readMessageLoop]
    norm_num
  exact ⟨by rw [heval]; simp, claim_C6_amended [0x08, 0x01] 2 (by rw [heval]; simp)⟩

theorem nextFieldScan_append_no_match (fnum : Int) (type : Option Nat)
    (l₁ l₂ : List PB_Field) (h : ∀ g ∈ l₁, g.number ≠ fnum) :
    nextFieldScan (some fnum) type (l₁ ++ l₂) = nextFieldScan (some fnum) type l₂ := by
  induction l₁ with
  | nil => rfl
  | cons g gs ih =>
    simp only [List.cons_append, nextFieldScan]
    have hg : (fnumMatches (some fnum) g) = false := by
      simp only [fnumMatches, beq_eq_false_iff_ne, ne_eq]
      exact h g (by simp)
    rw [hg]
    simp only [Bool.false_eq_true, if_false]
    exact ih (fun g hg2 => h g (by simp [hg2]))

/-- Claim C4: `PB_get_field` scans backward from the tail, so on a
message where field number fnum occurs, it considers exactly the last
occurrence in encounter order: that field is returned when its wire type
matches the requested type, and the lookup fails with NULL when it does
not — even when an earlier field with the same number and the correct
type exists, since the scan does not continue past a number match. -/
theorem claim_C4_get_field_last_wins (pre post : List PB_Field) (f : PB_Field)
    (fnum : Int) (t : Nat) (hf : f.number = fnum) (hpost : ∀ g ∈ post, g.number ≠ fnum) :
    PB_get_field (pre ++ f :: post) (some fnum) (some t) =
      if f.type = t then some f else none := by
  unfold PB_get_field
  rw [show (pre ++ f :: post).reverse = post.reverse ++ f :: pre.reverse by simp]
  rw [nextFieldScan_append_no_match fnum (some t) post.reverse (f :: pre.reverse)
    (fun g hg => hpost g (List.mem_reverse.mp hg))]
  simp only [nextFieldScan, fnumMatches, typeMatches, hf, beq_self_eq_true, if_true]
  by_cases ht : f.type = t
  · simp [ht]
  · simp [ht]

theorem claim_C4_witness :
    ((⟨1, LEN_TYPE, .bytes []⟩ : PB_Field).number = 1 ∧
      (∀ g ∈ ([] : List PB_Field), g.number ≠ 1)) ∧
    PB_get_field [⟨1, VARINT_TYPE, .i64 7⟩, ⟨1, LEN_TYPE, .bytes []⟩]
      (some 1) (some VARINT_TYPE) = none := by
  refine ⟨⟨rfl, by simp⟩, ?_⟩
  have h := claim_C4_get_field_last_wins [⟨1, VARINT_TYPE, .i64 7⟩] []
    ⟨1, LEN_TYPE, .bytes []⟩ 1 VARINT_TYPE rfl (by simp)
  rw [if_neg (by decide)] at h
  exact h

/-- Claim C7 counterexample: on the tag byte 0x06, whose wire type 6 lies
outside the legal codes, `PB_read_tag` succeeds instead of failing with
an invalid-wire-type error — tag decoding performs no wire-type
validation. -/
theorem claim_C7_counterexample :
    PB_read_tag [0x06] = some (6, 0, 1, []) ∧ PB_read_tag [0x06] ≠ none := by
  constructor
  · decide
  · decide

/-- Claim C7 amended: tag decoding extracts the low 3 bits of the decoded
varint as the wire type and the remaining bits (shifted right by 3 and
truncated to int32) as the field number, performing no validation itself;
the rejection happens in `PB_read_value`, which fails for every wire type
outside the four legal codes 0, 1, 2, 5 — the deprecated group types 3
and 4 included. -/
theorem claim_C7_amended (input : List Nat) (tag n : Nat) (rest : List Nat)
    (wt : Nat) (input₂ : List Nat)
    (hv : PB_read_varint input = some (tag, n, rest))
    (hwt : wt ≠ VARINT_TYPE ∧ wt ≠ I64_TYPE ∧ wt ≠ LEN_TYPE ∧ wt ≠ I32_TYPE) :
    PB_read_tag input = some (tag &&& 0x07, toInt32 (tag >>> 3), n, rest) ∧
    PB_read_value wt input₂ = none := by
  constructor
  · unfold PB_read_tag
    rw [hv]
  · unfold PB_read_value
    rw [if_neg hwt.1, if_neg hwt.2.1, if_neg hwt.2.2.1, if_neg hwt.2.2.2]

theorem claim_C7_witness :
    (PB_read_varint [0x0B] = some (11, 1, []) ∧
      (3 ≠ VARINT_TYPE ∧ 3 ≠ I64_TYPE ∧ 3 ≠ LEN_TYPE ∧ 3 ≠ I32_TYPE)) ∧
    PB_read_tag [0x0B] = some (3, 1, 1, []) ∧ PB_read_value SGROUP_TYPE [] = none := by
  have h := claim_C7_amended [0x0B] 11 1 [] 3 [] (by decide) (by decide)
  exact ⟨⟨by decide, by decide⟩, by simpa using h.1, h.2⟩

/-- Claim C3: zig-zag decoding in the code is not the inverse of zig-zag
encoding over the full int64 range.  The encoding of the int64 minimum
-2^63 is 2^64 - 1; passed through the int64_t parameter it is
reinterpreted as -1, and zigzag_decode returns 0 instead of -2^63.  The
spec formula on the unsigned value yields the correct -2^63, so the code
diverges from the claim at this input. -/
theorem claim_C3_zigzag_bug :
    zigzag_encode_spec (-(2 ^ 63)) = 2 ^ 64 - 1 ∧
    zigzag_decode (toInt64 (2 ^ 64 - 1)) = 0 ∧
    zigzag_decode_spec (2 ^ 64 - 1) = -(2 ^ 63) ∧
    zigzag_decode (toInt64 (zigzag_encode_spec (-(2 ^ 63)))) ≠ -(2 ^ 63) := by
  refine ⟨by decide, by decide, by decide, by decide⟩

/-- Claim C5: `PB_inflate_embedded_message` ignores the status returned
by zlib_inflate — its result is independent of that status — and on a
nonempty input whose inflation fails with no output it returns 0
(success) instead of an error; no declared uncompressed size is available
to it, so no size comparison can occur. -/
theorem claim_C5_inflate_ignores_failure :
    (∀ (s₁ s₂ : Int) (out buf : List Nat),
      PB_inflate_embedded_message ⟨s₁, out⟩ buf = PB_inflate_embedded_message ⟨s₂, out⟩ buf) ∧
    PB_inflate_embedded_message ⟨-3, []⟩ [0] = (0, none) := by
  constructor
  · intro s₁ s₂ out buf
    rfl
  · rfl

/-- Claim C10: every OSM accessor taking an object pointer returns a
defined failure value on NULL: the map, node, way and bounding-box
getters return -1 and OSM_Map_get_BBox returns NULL.  Consequently -1 is
ambiguous with a legitimately stored value: a node whose id is -1 is
indistinguishable from a NULL argument through OSM_Node_get_id. -/
theorem claim_C10_null_accessors :
    OSM_Map_get_num_nodes none = -1 ∧ OSM_Map_get_num_ways none = -1 ∧
    OSM_Node_get_id none = -1 ∧ OSM_Node_get_lat none = -1 ∧ OSM_Node_get_lon none = -1 ∧
    OSM_Way_get_id none = -1 ∧ OSM_Way_get_num_refs none = -1 ∧
    OSM_BBox_get_min_lon none = -1 ∧ OSM_BBox_get_max_lon none = -1 ∧
    OSM_BBox_get_max_lat none = -1 ∧ OSM_BBox_get_min_lat none = -1 ∧
    OSM_Map_get_BBox none = none ∧
    OSM_Node_get_id (some ⟨-1, 0, 0⟩) = OSM_Node_get_id none := by
  decide

theorem sub64_of_le (a n : Nat) (h : n ≤ a) (ha : a < 2 ^ 64) : sub64 a n = a - n := by
  unfold sub64
  rw [Nat.mod_eq_of_lt (lt_of_le_of_lt h ha)]
  have h2 : a + (2 ^ 64 - n) = (a - n) + 2 ^ 64 := by omega
  rw [h2, Nat.add_mod_right]
  exact Nat.mod_eq_of_lt (by omega)

theorem expandPackedLoop_succ (fnum : Int) (type : Nat) (fuel : Nat) (stream : List Nat)
    (eof : Bool) (size : Nat) (acc : List PB_Field) :
    expandPackedLoop fnum type (fuel + 1) stream eof size acc =
      if size = 0 then some acc
      else if eof then
        expandPackedLoop fnum type fuel stream eof size (acc ++ [mkExpField fnum type (.i64 0)])
      else
        match PB_read_value type stream with
        | some (v, n, rest) =>
          expandPackedLoop fnum type fuel rest eof (sub64 size n)
            (acc ++ [mkExpField fnum type v])
        | none =>
          expandPackedLoop fnum type fuel stream
            (decide (type = VARINT_TYPE ∨ type = I64_TYPE ∨ type = LEN_TYPE ∨ type = I32_TYPE))
            (sub64 size (2 ^ 64 - 1)) (acc ++ [mkExpField fnum type (.i64 0)]) := rfl

theorem expandFieldsLoop_succ (fnum : Int) (type : Nat) (fuel : Nat) (fields : List PB_Field)
    (i : Nat) :
    expandFieldsLoop fnum type (fuel + 1) fields i =
      if h : i < fields.length then
        if (fields.get ⟨i, h⟩).number = fnum then
          if (fields.get ⟨i, h⟩).type = LEN_TYPE then
            match expandPackedLoop fnum type fuel (fields.get ⟨i, h⟩).value.bytesOf false
                (fields.get ⟨i, h⟩).value.bytesOf.length [] with
            | none => none
            | some newFields => expandFieldsLoop fnum type fuel (fields ++ newFields) (i + 1)
          else expandFieldsLoop fnum type fuel fields (i + 1)
        else expandFieldsLoop fnum type fuel fields i
      else some fields := rfl

/-- Claim C1: refuted on the code — `PB_expand_packed_fields` does not
terminate on every message.  On a message holding a single field whose
number (2) differs from the requested fnum (1), the traversal never
advances, so no amount of fuel makes the loop finish. -/
theorem claim_C1_expand_never_finishes :
    ∀ fuel : Nat,
      PB_expand_packed_fields fuel [⟨2, VARINT_TYPE, .i64 5⟩] 1 VARINT_TYPE = none := by
  intro fuel
  induction fuel with
  | zero => rfl
  | succ f ih => exact ih

theorem claim_C1_witness :
    PB_expand_packed_fields 5 [⟨2, VARINT_TYPE, .i64 5⟩] 1 VARINT_TYPE = none :=
  claim_C1_expand_never_finishes 5

theorem expandPackedLoop_decodes (fnum : Int) (type : Nat) (buf : List Nat)
    (vals : List PB_Value) (hdec : DecodesPacked type buf vals) :
    buf.length < 2 ^ 64 →
    ∀ fuel : Nat, vals.length + 1 ≤ fuel → ∀ acc : List PB_Field,
      expandPackedLoop fnum type fuel buf false buf.length acc =
        some (acc ++ vals.map (mkExpField fnum type)) := by
  induction hdec with
  | nil =>
    intro hlen fuel hfuel acc
    obtain ⟨f, rfl⟩ : ∃ f, fuel = f + 1 := ⟨fuel - 1, by omega⟩
    rw [expandPackedLoop_succ]
    simp
  | @cons input rest v n vs hread hrest ih =>
    intro hlen fuel hfuel acc
    obtain ⟨f, rfl⟩ : ∃ f, fuel = f + 1 := ⟨fuel - 1, by omega⟩
    have hcons := PB_read_value_consumed type input v n rest hread
    rw [expandPackedLoop_succ]
    rw [if_neg (by omega : ¬ input.length = 0)]
    rw [if_neg (by simp : ¬ (false : Bool) = true)]
    simp only [hread]
    rw [sub64_of_le input.length n (by omega) hlen]
    have hr : input.length - n = rest.length := by omega
    rw [hr]
    have hlen2 : rest.length < 2 ^ 64 := by omega
    have hfuel2 : vs.length + 1 ≤ f := by
      have hl : (v :: vs).length = vs.length + 1 := List.length_cons v vs
      omega
    rw [ih hlen2 f hfuel2 (acc ++ [mkExpField fnum type v])]
    simp

theorem expandFieldsLoop_skip_all (fnum : Int) (type : Nat) :
    ∀ (fuel : Nat) (fields : List PB_Field) (i : Nat),
      fields.length - i + 1 ≤ fuel →
      (∀ g ∈ fields.drop i, g.number = fnum ∧ g.type ≠ LEN_TYPE) →
      expandFieldsLoop fnum type fuel fields i = some fields := by
  intro fuel
  induction fuel with
  | zero => intro fields i hk hskip; exact absurd hk (by omega)
  | succ f ih =>
    intro fields i hk hskip
    rw [expandFieldsLoop_succ]
    by_cases h : i < fields.length
    · rw [dif_pos h]
      have hdrop : fields.drop i = fields.get ⟨i, h⟩ :: fields.drop (i + 1) := by
        rw [List.drop_eq_getElem_cons h]
        simp [List.get_eq_getElem]
      have hp := hskip (fields.get ⟨i, h⟩) (by rw [hdrop]; exact List.mem_cons_self _ _)
      rw [if_pos hp.1, if_neg hp.2]
      exact ih fields (i + 1) (by omega)
        (fun g hg => hskip g (by rw [hdrop]; exact List.mem_cons_of_mem _ hg))
    · rw [dif_neg h]

theorem expandFieldsLoop_walk (fnum : Int) (type : Nat) :
    ∀ (m : Nat) (fields : List PB_Field) (i fuel : Nat),
      i + m ≤ fields.length →
      (∀ g ∈ (fields.drop i).take m, g.number = fnum ∧ g.type ≠ LEN_TYPE) →
      expandFieldsLoop fnum type (m + fuel) fields i =
        expandFieldsLoop fnum type fuel fields (i + m) := by
  intro m
  induction m with
  | zero => intro fields i fuel hlen hskip; simp
  | succ m ih =>
    intro fields i fuel hlen hskip
    have h : i < fields.length := by omega
    have hdrop : fields.drop i = fields.get ⟨i, h⟩ :: fields.drop (i + 1) := by
      rw [List.drop_eq_getElem_cons h]
      simp [List.get_eq_getElem]
    have hp := hskip (fields.get ⟨i, h⟩)
      (by rw [hdrop, List.take_succ_cons]; exact List.mem_cons_self _ _)
    have hstep : m + 1 + fuel = (m + fuel) + 1 := by omega
    rw [hstep, expandFieldsLoop_succ, dif_pos h, if_pos hp.1, if_neg hp.2]
    rw [ih fields (i + 1) fuel (by omega)
      (fun g hg => hskip g (by rw [hdrop, List.take_succ_cons]; exact List.mem_cons_of_mem _ hg))]
    have harith : i + 1 + m = i + (m + 1) := by omega
    rw [harith]

/-- Claim C2 counterexample: expanding a packed field of one VARINT value
leaves the original packed field in place and appends the expansion at
the message's tail; the result is not the in-place splice the claim
demands, under which the packed field would be removed and only the
expansion remain at its position. -/
theorem claim_C2_counterexample :
    PB_expand_packed_fields 5 [⟨1, LEN_TYPE, .bytes [1]⟩] 1 VARINT_TYPE =
      some [⟨1, LEN_TYPE, .bytes [1]⟩, ⟨1, VARINT_TYPE, .i64 1⟩] ∧
    some [(⟨1, LEN_TYPE, .bytes [1]⟩ : PB_Field), ⟨1, VARINT_TYPE, .i64 1⟩] ≠
      some [(⟨1, VARINT_TYPE, .i64 1⟩ : PB_Field)] := by
  constructor
  · decide
  · decide

/-- Claim C2 amended: on a message whose fields all bear the number fnum
and are otherwise primitive-typed, expanding the packed LENGTH_DELIMITED
field whose buffer encodes the value sequence vals produces exactly one
field per value, each with number fnum and the given primitive wire
type, in the buffer's order — but the expansion is appended at the tail
of the message and the original packed field is kept, not replaced. -/
theorem claim_C2_amended (pre post : List PB_Field) (fnum : Int) (type : Nat)
    (buf : List Nat) (vals : List PB_Value)
    (htype : type ≠ LEN_TYPE)
    (hpre : ∀ g ∈ pre, g.number = fnum ∧ g.type ≠ LEN_TYPE)
    (hpost : ∀ g ∈ post, g.number = fnum ∧ g.type ≠ LEN_TYPE)
    (hdec : DecodesPacked type buf vals)
    (hlen : buf.length < 2 ^ 64)
    (fuel : Nat) (hfuel : pre.length + post.length + vals.length + 2 ≤ fuel) :
    PB_expand_packed_fields fuel (pre ++ ⟨fnum, LEN_TYPE, .bytes buf⟩ :: post) fnum type =
      some ((pre ++ ⟨fnum, LEN_TYPE, .bytes buf⟩ :: post) ++
        vals.map (mkExpField fnum type)) := by
  unfold PB_expand_packed_fields
  have hf₁ : fuel = pre.length + (fuel - pre.length) := by omega
  rw [hf₁]
  rw [expandFieldsLoop_walk fnum type pre.length (pre ++ ⟨fnum, LEN_TYPE, .bytes buf⟩ :: post)
    0 (fuel - pre.length) (by simp)
    (by
      intro g hg
      rw [List.drop_zero, List.take_left] at hg
      exact hpre g hg)]
  simp only [Nat.zero_add]
  have hf₂ : fuel - pre.length = (fuel - pre.length - 1) + 1 := by omega
  rw [hf₂, expandFieldsLoop_succ]
  have hidx : pre.length < (pre ++ ⟨fnum, LEN_TYPE, .bytes buf⟩ :: post).length := by
    simp
  rw [dif_pos hidx]
  have hget : (pre ++ ⟨fnum, LEN_TYPE, .bytes buf⟩ :: post).get ⟨pre.length, hidx⟩
      = ⟨fnum, LEN_TYPE, .bytes buf⟩ := by
    rw [List.get_eq_getElem]
    rw [List.getElem_append_right (le_refl pre.length)]
    simp
  rw [hget]
  rw [if_pos rfl, if_pos rfl]
  have hbytes : ({ number := fnum, type := LEN_TYPE, value := PB_Value.bytes buf } :
      PB_Field).value.bytesOf = buf := rfl
  rw [hbytes]
  rw [expandPackedLoop_decodes fnum type buf vals hdec hlen
    (fuel - pre.length - 1) (by omega) []]
  simp only [List.nil_append]
  have hdrop2 : ((pre ++ ⟨fnum, LEN_TYPE, .bytes buf⟩ :: post) ++
      vals.map (mkExpField fnum type)).drop (pre.length + 1)
      = post ++ vals.map (mkExpField fnum type) := by
    rw [show (pre ++ ⟨fnum, LEN_TYPE, .bytes buf⟩ :: post) ++ vals.map (mkExpField fnum type)
        = (pre ++ [(⟨fnum, LEN_TYPE, PB_Value.bytes buf⟩ : PB_Field)]) ++
          (post ++ vals.map (mkExpField fnum type)) by simp]
    rw [show pre.length + 1
        = (pre ++ [(⟨fnum, LEN_TYPE, PB_Value.bytes buf⟩ : PB_Field)]).length by simp]
    exact List.drop_left _ _
  exact expandFieldsLoop_skip_all fnum type (fuel - pre.length - 1)
    ((pre ++ ⟨fnum, LEN_TYPE, .bytes buf⟩ :: post) ++ vals.map (mkExpField fnum type))
    (pre.length + 1) (by simp; omega)
    (by
      intro g hg
      rw [hdrop2] at hg
      rcases List.mem_append.mp hg with hgp | hgm
      · exact hpost g hgp
      · obtain ⟨v, hv, rfl⟩ := List.mem_map.mp hgm
        exact ⟨rfl, htype⟩)

theorem claim_C2_witness :
    ((0 : Nat) ≠ LEN_TYPE ∧ DecodesPacked VARINT_TYPE [1] [PB_Value.i64 1] ∧
      ([1] : List Nat).length < 2 ^ 64) ∧
    PB_expand_packed_fields 3 [⟨1, LEN_TYPE, .bytes [1]⟩] 1 VARINT_TYPE =
      some [⟨1, LEN_TYPE, .bytes [1]⟩, ⟨1, VARINT_TYPE, .i64 1⟩] := by
  have hdec : DecodesPacked VARINT_TYPE [1] [PB_Value.i64 1] :=
    @DecodesPacked.cons VARINT_TYPE [1] [] (PB_Value.i64 1) 1 [] (by decide) DecodesPacked.nil
  refine ⟨⟨by decide, hdec, by decide⟩, ?_⟩
  have h := claim_C2_amended [] [] 1 VARINT_TYPE [1] [PB_Value.i64 1]
    (by decide) (by simp) (by simp) hdec (by decide) 3 (by decide)
  simpa using h
